import Mathlib

/-!
Shallow embedding of the ZkVM transaction-verification core
(src/errors.rs, src/types.rs, src/vm.rs) for checking the specification
claims.  Machine integers are modelled as `Nat` (with explicit `% 2^32`
where the source truncates via an `as u32` cast); byte strings are
`List Nat`; fallible Rust functions returning `Result<_, VMError>` are
modelled in the `Outcome` monad, whose extra constructor `panicked`
models a Rust panic (`unimplemented!()`, integer underflow, or
out-of-bounds slicing) as distinct from a returned typed error.
-/

set_option maxHeartbeats 1000000

namespace ZkVM

/-- A compressed Ristretto point is an opaque 32-byte string
(`curve25519_dalek::ristretto::CompressedRistretto`, external to the
repository); the VM core never interprets the bytes. -/
abbrev Point : Type := { l : List Nat // l.length = 32 }

/-- External stand-in for `curve25519_dalek::scalar::Scalar`; the code
covered by the claims never computes with scalars. -/
abbrev Scalar : Type := Nat

/-- External stand-in for `bulletproofs::r1cs::Variable`. -/
abbrev R1CSVar : Type := Nat

/-- Modelled from the spec: `predicate.rs` is not in src/; per the
glossary a predicate is "a compressed elliptic-curve point acting as an
unlock condition", and vm.rs constructs it as `Predicate(point)`. -/
structure Predicate where
  point : Point
deriving DecidableEq

/-- The `VMError` enumeration of src/errors.rs.  NOTE: errors.rs declares
only twelve variants; `typeNotVariable`, `typeNotExpression` and
`typeNotPortable` are returned by the downcasts in src/types.rs but are
absent from the enum declared in errors.rs (see the C2 analysis); they
are included here so that the downcasts of types.rs can be modelled as
written. -/
inductive VMError where
  | pointOperationFailed
  | invalidPoint
  | formatError
  | extensionsNotAllowed
  | typeNotCopyable
  | typeNotData
  | typeNotContract
  | typeNotValue
  | typeNotWideValue
  | stackUnderflow
  | stackNotClean
  | notUniqueTxid
  | typeNotVariable
  | typeNotExpression
  | typeNotPortable
deriving DecidableEq

/-- Result of running a piece of the VM.  `panicked` models a Rust panic:
`unimplemented!()` in the stubbed instruction handlers and in
`verify_tx`, usize subtraction underflow, or out-of-bounds indexing. -/
inductive Outcome (α : Type) where
  | ok : α → Outcome α
  | err : VMError → Outcome α
  | panicked : Outcome α
deriving DecidableEq

def Outcome.bind {α β : Type} : Outcome α → (α → Outcome β) → Outcome β
  | .ok a, f => f a
  | .err e, _ => .err e
  | .panicked, _ => .panicked

instance : Monad Outcome where
  pure := .ok
  bind := Outcome.bind

/-- `Data` as used throughout vm.rs and by its own impl in types.rs: a
byte string borrowed from the transaction buffer (`Data { bytes }`).
(The enum form `Opaque/Witness` declared at the top of types.rs is
inconsistent with every use site, including types.rs's own
`ensure_length`, which reads `self.bytes`.) -/
structure Data where
  bytes : List Nat
deriving DecidableEq

/-- An opaque index into the VM's variable-commitment table
(src/types.rs `Variable`). -/
structure Variable where
  index : Nat
deriving DecidableEq

/-- src/types.rs `Value`: quantity and flavor variable handles. -/
structure Value where
  qty : Variable
  flv : Variable
deriving DecidableEq

/-- src/types.rs `WideValue`. -/
structure WideValue where
  r1csQty : R1CSVar
  r1csFlv : R1CSVar
  witness : Option (Scalar × Scalar)

/-- src/types.rs `Expression`: terms of a linear combination. -/
structure Expression where
  terms : List (R1CSVar × Scalar)

/-- src/types.rs `Constraint`. -/
inductive Constraint where
  | eq : Expression → Expression → Constraint
  | and : List Constraint → Constraint
  | or : List Constraint → Constraint

/-- src/types.rs `PortableItem`. -/
inductive PortableItem where
  | data : Data → PortableItem
  | value : Value → PortableItem
deriving DecidableEq

/-- src/types.rs `Contract`. -/
structure Contract where
  payload : List PortableItem
  predicate : Predicate
deriving DecidableEq

/-- src/types.rs `Item` (the constructor for the `Variable` variant is
named `var` because `variable` is reserved in Lean). -/
inductive Item where
  | data : Data → Item
  | contract : Contract → Item
  | value : Value → Item
  | wideValue : WideValue → Item
  | var : Variable → Item
  | expression : Expression → Item
  | constraint : Constraint → Item

/-! ### Downcasts (src/types.rs, `impl Item`) -/

def Item.toData : Item → Outcome Data
  | .data x => .ok x
  | _ => .err .typeNotData

def Item.toPortable : Item → Outcome PortableItem
  | .data x => .ok (.data x)
  | .value x => .ok (.value x)
  | _ => .err .typeNotPortable

def Item.toVariable : Item → Outcome Variable
  | .var v => .ok v
  | _ => .err .typeNotVariable

def Item.toExpression : Item → Outcome Expression
  | .expression e => .ok e
  | _ => .err .typeNotExpression

def Item.toValue : Item → Outcome Value
  | .value v => .ok v
  | _ => .err .typeNotValue

def Item.toWideValue : Item → Outcome WideValue
  | .wideValue w => .ok w
  | _ => .err .typeNotWideValue

def Item.toContract : Item → Outcome Contract
  | .contract c => .ok c
  | _ => .err .typeNotContract

/-! ### Data conversions (src/types.rs, `impl Data`) -/

/-- `Data::ensure_length`. -/
def Data.ensureLength (d : Data) (len : Nat) : Outcome Data :=
  if d.bytes.length ≠ len then .err .formatError else .ok d

/-- `Data::to_u8x32`: `ensure_length(32)` followed by a copy into a
32-byte array (the length proof carried by the subtype). -/
def Data.toU8x32 (d : Data) : Outcome Point :=
  if h : d.bytes.length = 32 then .ok ⟨d.bytes, h⟩ else .err .formatError

/-- `Data::to_point`: wraps the 32 bytes as a `CompressedRistretto`
without any group-element validity check. -/
def Data.toPoint (d : Data) : Outcome Point :=
  d.toU8x32

/-! ### Binary codec

Modelled from the spec: `encoding.rs` is not in src/.  Per spec §4.1/§6
each reader takes a byte slice and returns `(parsed value, remaining
slice)` or a format error; readers never panic on truncated input;
`read_usize` reads a little-endian 32-bit integer; writers are the exact
syntactic inverses.  Mutation of the output `Vec` is modelled by
returning the written bytes, which callers concatenate in order. -/

def readU8x32 (b : List Nat) : Outcome (Point × List Nat) :=
  if h : 32 ≤ b.length then
    .ok (⟨b.take 32, by rw [List.length_take]; omega⟩, b.drop 32)
  else .err .formatError

def readPoint (b : List Nat) : Outcome (Point × List Nat) :=
  readU8x32 b

def readU8 (b : List Nat) : Outcome (Nat × List Nat) :=
  match b with
  | [] => .err .formatError
  | x :: rest => .ok (x, rest)

def readUsize (b : List Nat) : Outcome (Nat × List Nat) :=
  match b with
  | b0 :: b1 :: b2 :: b3 :: rest =>
      .ok (b0 + 256 * b1 + 65536 * b2 + 16777216 * b3, rest)
  | _ => .err .formatError

def readBytes (len : Nat) (b : List Nat) : Outcome (List Nat × List Nat) :=
  if len ≤ b.length then .ok (b.take len, b.drop len) else .err .formatError

def writeU8 (x : Nat) : List Nat := [x]

/-- Little-endian 32-bit write; the `% 2 ^ 32` models the `as u32`
truncation performed at the call sites in `encode_output`. -/
def writeU32 (n : Nat) : List Nat :=
  let m := n % 4294967296
  [m % 256, m / 256 % 256, m / 65536 % 256, m / 16777216 % 256]

def writeBytes (b : List Nat) : List Nat := b

def writePoint (p : Point) : List Nat := p.val

/-! ### VM state (src/vm.rs) -/

/-- src/vm.rs `CURRENT_VERSION`. -/
def CURRENT_VERSION : Nat := 1

/-- src/vm.rs `DATA_TYPE`. -/
def DATA_TYPE : Nat := 0

/-- src/vm.rs `VALUE_TYPE`. -/
def VALUE_TYPE : Nat := 1

/-- src/vm.rs `VariableCommitment`. -/
inductive VariableCommitment where
  | detached : Point → VariableCommitment
  | attached : Point → Nat → VariableCommitment
deriving DecidableEq

/-- src/vm.rs `TxID`: a 32-byte transaction identifier. -/
structure TxID where
  id : Point
deriving DecidableEq

/-- src/vm.rs `UTXO`: a 32-byte output identifier. -/
structure UTXO where
  id : List Nat
deriving DecidableEq

/-- Modelled from the spec: `UTXO::from_output` hashes the output bytes
together with the txid through a domain-separated transcript (merlin is
external to the repository); the hash is modelled as the injective
pairing of its two inputs, which no claim inspects. -/
def UTXO.fromOutput (output : List Nat) (txid : TxID) : UTXO :=
  ⟨txid.id.val ++ output⟩

/-- src/vm.rs `LogEntry` (`import`/`export` renamed: reserved words). -/
inductive LogEntry where
  | issue : Point → Point → LogEntry
  | retire : Point → Point → LogEntry
  | input : UTXO → LogEntry
  | nonce : Predicate → Nat → LogEntry
  | output : List Nat → LogEntry
  | data : Data → LogEntry
  | importEntry : LogEntry
  | exportEntry : LogEntry
deriving DecidableEq

/-- Modelled from the spec: `point_ops.rs` is not in src/; per §4.4 a
deferred point operation asserts that a linear combination of group
elements equals the identity.  Nothing in the code under src/ ever
constructs one. -/
structure PointOp where
  combination : List (Scalar × Point)

/-- The instruction set, as enumerated by the dispatch match in
`VM::step` (src/vm.rs).  The byte grammar (`ops.rs`) is out of scope per
spec §1; `import`/`export` are renamed because they are reserved. -/
inductive Instruction where
  | push : Nat → Instruction
  | drop : Instruction
  | dup : Nat → Instruction
  | roll : Nat → Instruction
  | const : Instruction
  | var : Instruction
  | alloc : Instruction
  | mintime : Instruction
  | maxtime : Instruction
  | neg : Instruction
  | add : Instruction
  | mul : Instruction
  | eq : Instruction
  | range : Nat → Instruction
  | and : Instruction
  | or : Instruction
  | verify : Instruction
  | blind : Instruction
  | reblind : Instruction
  | unblind : Instruction
  | issue : Instruction
  | borrow : Instruction
  | retire : Instruction
  | qty : Instruction
  | flavor : Instruction
  | cloak : Nat → Nat → Instruction
  | importIns : Instruction
  | exportIns : Instruction
  | input : Instruction
  | output : Nat → Instruction
  | contract : Nat → Instruction
  | nonce : Instruction
  | log : Instruction
  | signtx : Instruction
  | call : Instruction
  | left : Instruction
  | right : Instruction
  | delegate : Instruction
  | ext : Nat → Instruction
deriving DecidableEq

/-- src/vm.rs `Run`: one program string and a cursor into it. -/
structure Run where
  program : List Nat
  offset : Nat
deriving DecidableEq

/-- src/vm.rs `VM` state.  The externally owned constraint-system
verifier handle (`cs`) is omitted: no code path under src/ interacts
with it.  `tx_signature` and `cs_proof` are stored by `verify_tx` but
never read on any implemented path and carry external types
(signature.rs, bulletproofs); they are omitted for the same reason. -/
structure VMState where
  version : Nat
  mintime : Nat
  maxtime : Nat
  program : List Nat
  extension : Bool
  unique : Bool
  stack : List Item
  currentRun : Run
  runStack : List Run
  txlog : List LogEntry
  signtxKeys : List Point
  deferredOperations : List PointOp
  variableCommitments : List VariableCommitment

/-! ### Stack and variable-table helpers (src/vm.rs) -/

/-- `VM::pop_item`.  The stack top is the head of the list (a Rust `Vec`
pushes and pops at its end). -/
def popItem (s : VMState) : Outcome (Item × VMState) :=
  match s.stack with
  | [] => .err .stackUnderflow
  | x :: rest => .ok (x, { s with stack := rest })

/-- `VM::push_item`. -/
def pushItem (s : VMState) (item : Item) : VMState :=
  { s with stack := item :: s.stack }

/-- `VM::make_variable`: appends a `Detached` entry and returns a handle
holding the index of the new entry. -/
def makeVariable (t : List VariableCommitment) (commitment : Point) :
    Variable × List VariableCommitment :=
  (⟨t.length⟩, t ++ [.detached commitment])

/-- `VM::get_variable_commitment`: returns the current point regardless
of attachment state.  A `none` result models the out-of-bounds panic,
which the source asserts is impossible because handles are created only
by `make_variable`. -/
def getVariableCommitment (t : List VariableCommitment) (v : Variable) :
    Option Point :=
  (t[v.index]?).map fun entry =>
    match entry with
    | .detached p => p
    | .attached p _ => p

/-! ### Output decoding and encoding (src/vm.rs)

`decode_output` and `encode_output` take `&mut self` but touch only the
`variable_commitments` table; they are modelled as functions of that
table. -/

/-- The item loop of `VM::decode_output`, by recursion on the declared
count `k`; bytes remaining after the k-th item are discarded, as in the
source. -/
def decodeItems :
    Nat → List Nat → List VariableCommitment →
    Outcome (List PortableItem × List VariableCommitment)
  | 0, _, t => .ok ([], t)
  | k + 1, items, t => do
    let (itemType, rest) ← readU8 items
    if itemType = DATA_TYPE then do
      let (len, rest) ← readUsize rest
      let (bytes, rest) ← readBytes len rest
      let (tail, tFinal) ← decodeItems k rest t
      .ok (.data ⟨bytes⟩ :: tail, tFinal)
    else if itemType = VALUE_TYPE then do
      let (qtyPoint, rest) ← readPoint rest
      let (flvPoint, rest) ← readPoint rest
      let (qty, t₁) := makeVariable t qtyPoint
      let (flv, t₂) := makeVariable t₁ flvPoint
      let (tail, tFinal) ← decodeItems k rest t₂
      .ok (.value ⟨qty, flv⟩ :: tail, tFinal)
    else .err .formatError

/-- `VM::decode_output`: `Predicate || LE32(k) || Item[0] || ... ||
Item[k-1]`, with the sanity check that the declared count does not
exceed the remaining buffer length. -/
def decodeOutput (t : List VariableCommitment) (output : List Nat) :
    Outcome (Contract × List VariableCommitment) := do
  let (predicatePoint, payload) ← readPoint output
  let (k, items) ← readUsize payload
  if k > items.length then .err .formatError
  else do
    let (payloadItems, tFinal) ← decodeItems k items t
    .ok (⟨payloadItems, ⟨predicatePoint⟩⟩, tFinal)

/-- `VM::decode_input`: `PreviousTxID || PreviousOutput`. -/
def decodeInput (t : List VariableCommitment) (inputBytes : List Nat) :
    Outcome ((Contract × TxID × UTXO) × List VariableCommitment) := do
  let (txidBytes, output) ← readU8x32 inputBytes
  let txid : TxID := ⟨txidBytes⟩
  let (contract, tFinal) ← decodeOutput t output
  let utxo := UTXO.fromOutput output txid
  .ok ((contract, txid, utxo), tFinal)

/-- One payload item of `VM::encode_output`; `none` models the
get-variable panic on a dangling handle, impossible by construction. -/
def encodeItem (t : List VariableCommitment) : PortableItem → Option (List Nat)
  | .data d =>
      some (writeU8 DATA_TYPE ++ writeU32 d.bytes.length ++ writeBytes d.bytes)
  | .value v => do
      let qty ← getVariableCommitment t v.qty
      let flv ← getVariableCommitment t v.flv
      some (writeU8 VALUE_TYPE ++ writePoint qty ++ writePoint flv)

/-- The payload loop of `VM::encode_output`: items are written in order
into the output buffer. -/
def encodePayload (t : List VariableCommitment) :
    List PortableItem → Option (List Nat)
  | [] => some []
  | p :: ps => do
    let e ← encodeItem t p
    let rest ← encodePayload t ps
    some (e ++ rest)

/-- `VM::encode_output`: predicate point, 4-byte little-endian payload
count (`payload.len() as u32`), then each payload item with each
variable's currently resolved commitment. -/
def encodeOutput (t : List VariableCommitment) (c : Contract) :
    Option (List Nat) := do
  let body ← encodePayload t c.payload
  some (writePoint c.predicate.point ++ writeU32 c.payload.length ++ body)

/-! ### Instruction handlers (src/vm.rs) -/

/-- `VM::pushdata`: pushes the `len` program bytes ending at the current
(just-advanced) offset as opaque data.  The Rust source computes the
slice `offset - len .. offset`; the guard models the panic on usize
underflow (`len > offset`) or on slicing past the end of the buffer. -/
def pushdata (s : VMState) (len : Nat) : Outcome VMState :=
  if len ≤ s.currentRun.offset ∧ s.currentRun.offset ≤ s.currentRun.program.length then
    .ok (pushItem s
      (.data ⟨(s.currentRun.program.drop (s.currentRun.offset - len)).take len⟩))
  else .panicked

/-- `VM::drop`: pop, then succeed only on a copyable variant. -/
def drop (s : VMState) : Outcome VMState := do
  let (item, s₁) ← popItem s
  match item with
  | .data _ => .ok s₁
  | .var _ => .ok s₁
  | .expression _ => .ok s₁
  | .constraint _ => .ok s₁
  | _ => .err .typeNotCopyable

/-- `VM::dup`: bounds check, then clone the item at depth `i` from the
top (Rust index `len - i - 1` from the bottom = index `i` of the
head-first list model). -/
def dup (s : VMState) (i : Nat) : Outcome VMState :=
  if h : i < s.stack.length then
    match s.stack.get ⟨i, h⟩ with
    | .data x => .ok (pushItem s (.data x))
    | .var x => .ok (pushItem s (.var x))
    | .expression x => .ok (pushItem s (.expression x))
    | .constraint x => .ok (pushItem s (.constraint x))
    | _ => .err .typeNotCopyable
  else .err .stackUnderflow

/-- `VM::roll`: remove the item at depth `i` and re-push it on top. -/
def roll (s : VMState) (i : Nat) : Outcome VMState :=
  if h : i < s.stack.length then
    .ok { s with stack := s.stack.get ⟨i, h⟩ :: s.stack.eraseIdx i }
  else .err .stackUnderflow

/-- `VM::nonce`: pop a data item, decode a predicate point, log a
`Nonce(predicate, maxtime)` entry, push an empty-payload contract, set
the `unique` flag. -/
def nonce (s : VMState) : Outcome VMState := do
  let (item, s₁) ← popItem s
  let d ← item.toData
  let p ← d.toPoint
  let predicate : Predicate := ⟨p⟩
  let contract : Contract := ⟨[], predicate⟩
  let s₂ := { s₁ with txlog := s₁.txlog ++ [.nonce predicate s₁.maxtime] }
  let s₃ := pushItem s₂ (.contract contract)
  .ok { s₃ with unique := true }

/-- `VM::issue`: pops and downcasts its three operands, then hits
`unimplemented!()`. -/
def issue (s : VMState) : Outcome VMState := do
  let (item₁, s₁) ← popItem s
  let d ← item₁.toData
  let _pred ← d.toPoint
  let (item₂, s₂) ← popItem s₁
  let _flv ← item₂.toVariable
  let (item₃, s₃) ← popItem s₂
  let _qty ← item₃.toVariable
  let _ := s₃
  .panicked

/-- `VM::input`: pop serialized input, decode `(contract, txid, utxo)`,
push the contract, log the UTXO, set the `unique` flag. -/
def inputInstr (s : VMState) : Outcome VMState := do
  let (item, s₁) ← popItem s
  let d ← item.toData
  let (res, tFinal) ← decodeInput s₁.variableCommitments d.bytes
  let (contract, _txid, utxo) := res
  let s₂ := { s₁ with variableCommitments := tFinal }
  let s₃ := pushItem s₂ (.contract contract)
  .ok { s₃ with txlog := s₃.txlog ++ [.input utxo], unique := true }

/-- `VM::ext`: no-op when the extension flag is set, typed error
otherwise. -/
def ext (s : VMState) (_opcode : Nat) : Outcome VMState :=
  if s.extension then .ok s else .err .extensionsNotAllowed

/-- The dispatch match of `VM::step`.  Every arm whose handler body is
`unimplemented!()` in the source (const, var, alloc, mintime, maxtime,
neg, add, mul, eq, range, and, or, verify, blind, reblind, unblind,
borrow, retire, qty, flavor, cloak, import, export, output, contract,
log, signtx, call, left, right, delegate) panics. -/
def execInstr (s : VMState) : Instruction → Outcome VMState
  | .push len => pushdata s len
  | .drop => drop s
  | .dup i => dup s i
  | .roll i => roll s i
  | .issue => issue s
  | .input => inputInstr s
  | .nonce => nonce s
  | .ext opcode => ext s opcode
  | _ => .panicked

/-! ### The instruction loop (src/vm.rs) -/

/-- `VM::finish_run` inlined into `VM::step`: at the end of the current
program, pop the run stack or report completion; otherwise parse one
instruction (`Instruction::parse` is out of scope per spec §1, so the
decoder is a parameter), advance the offset by its encoded size before
executing, then dispatch. -/
def step (parse : List Nat → Option (Instruction × Nat)) (s : VMState) :
    Outcome (Bool × VMState) :=
  if s.currentRun.offset = s.currentRun.program.length then
    match s.runStack with
    | [] => .ok (false, s)
    | r :: rest => .ok (true, { s with currentRun := r, runStack := rest })
  else if s.currentRun.program.length < s.currentRun.offset then
    .panicked
  else
    match parse (s.currentRun.program.drop s.currentRun.offset) with
    | none => .err .formatError
    | some (instr, instrSize) =>
      let s₁ := { s with currentRun :=
        { s.currentRun with offset := s.currentRun.offset + instrSize } }
      Outcome.bind (execInstr s₁ instr) fun s₂ => .ok (true, s₂)

/-- Bytes left in a run. -/
def runRemaining (r : Run) : Nat := r.program.length - r.offset

/-- Termination measure for the instruction loop: bytes remaining in the
current and all suspended programs, plus the run-stack depth. -/
def vmMeasure (s : VMState) : Nat :=
  runRemaining s.currentRun + (s.runStack.map runRemaining).sum + s.runStack.length

/-- `VM::run`, with an explicit step budget; `none` means the budget was
exhausted (the Rust loop would still be running).  Claim C8 shows a
budget of `vmMeasure s + 1` always suffices for a well-formed decoder. -/
def runFuel (parse : List Nat → Option (Instruction × Nat)) :
    Nat → VMState → Option (Outcome VMState)
  | 0, _ => none
  | fuel + 1, s =>
    match step parse s with
    | .ok (true, s₁) => runFuel parse fuel s₁
    | .ok (false, s₁) => some (.ok s₁)
    | .err e => some (.err e)
    | .panicked => some .panicked

/-- src/vm.rs `Tx`.  `signature` and `proof` carry external types and
are never read on any implemented code path; they are omitted. -/
structure Tx where
  version : Nat
  mintime : Nat
  maxtime : Nat
  program : List Nat

/-- src/vm.rs `VerifiedTx`. -/
structure VerifiedTx where
  txid : Point
deriving DecidableEq

/-- The engine constructed at the top of `VM::verify_tx`. -/
def initVM (tx : Tx) : VMState where
  version := tx.version
  mintime := tx.mintime
  maxtime := tx.maxtime
  program := tx.program
  extension := CURRENT_VERSION < tx.version
  unique := false
  stack := []
  currentRun := ⟨tx.program, 0⟩
  runStack := []
  txlog := []
  signtxKeys := []
  deferredOperations := []
  variableCommitments := []

/-- `VM::verify_tx`: run to completion, then the `StackNotClean` and
`NotUniqueTxid` checks.  The source then hits `unimplemented!()` — the
txid derivation, signature check, proof check and the `Ok(VerifiedTx)`
return do not exist — modelled as `panicked`.  The outer `none` is the
exhaustion of the step budget (see `runFuel`). -/
def verifyTx (parse : List Nat → Option (Instruction × Nat)) (tx : Tx) :
    Option (Outcome VerifiedTx) :=
  let s := initVM tx
  match runFuel parse (vmMeasure s + 1) s with
  | none => none
  | some (.err e) => some (.err e)
  | some .panicked => some .panicked
  | some (.ok s₁) =>
    if s₁.stack.length > 0 then some (.err .stackNotClean)
    else if s₁.unique = false then some (.err .notUniqueTxid)
    else some .panicked

/-- Modelled from the spec: the instruction byte grammar is out of scope
(§1, `ops.rs` not in src/); this sample decoder realizes the collaborator
interface `parse(bytes) → Option (Instruction, consumed_length)` of §6 so
that concrete programs can be evaluated.  Opcode bytes: 0 drop, 1 nonce,
2 const (an unimplemented handler), 3 input, 4 ext, 5 push with a
one-byte length prefix followed by the payload, 6 dup(0). -/
def sampleParse : List Nat → Option (Instruction × Nat)
  | [] => none
  | b :: rest =>
    if b = 0 then some (.drop, 1)
    else if b = 1 then some (.nonce, 1)
    else if b = 2 then some (.const, 1)
    else if b = 3 then some (.input, 1)
    else if b = 4 then some (.ext b, 1)
    else if b = 5 then
      match rest with
      | len :: rest₂ => if len ≤ rest₂.length then some (.push len, 2 + len) else none
      | [] => none
    else if b = 6 then some (.dup 0, 1)
    else none

/-! ### Auxiliary definitions used by the claim statements -/

/-- The copyability classification enforced by the match arms of
`VM::drop` and `VM::dup`. -/
def Item.copyable : Item → Bool
  | .data _ => true
  | .var _ => true
  | .expression _ => true
  | .constraint _ => true
  | _ => false

/-- `make_variable` iterated over a list of commitments. -/
def makeVariables (t : List VariableCommitment) :
    List Point → List Variable × List VariableCommitment
  | [] => ([], t)
  | c :: cs =>
    let (v, t₁) := makeVariable t c
    let (vs, t₂) := makeVariables t₁ cs
    (v :: vs, t₂)

/-- A decoder satisfies the collaborator interface of spec §6/§5 when
every reported consumed length is at least one byte and no more than the
input length. -/
def ParseWellFormed (parse : List Nat → Option (Instruction × Nat)) : Prop :=
  ∀ b instr n, parse b = some (instr, n) → 1 ≤ n ∧ n ≤ b.length

/-- A payload item a contract held by the VM can actually carry: its
data fits the 32-bit length prefix and its variable handles resolve in
the table. -/
def portableValid (t : List VariableCommitment) : PortableItem → Bool
  | .data d => d.bytes.length < 4294967296
  | .value v =>
      (getVariableCommitment t v.qty).isSome && (getVariableCommitment t v.flv).isSome

/-- Correspondence between an original payload item (under table `t`)
and its decoded counterpart (under table `t₂`): data items carry the
same bytes, value items resolve to the same commitment points. -/
def portableMatches (t t₂ : List VariableCommitment) :
    PortableItem → PortableItem → Prop
  | .data d, .data d₂ => d = d₂
  | .value v, .value v₂ =>
      getVariableCommitment t₂ v₂.qty = getVariableCommitment t v.qty ∧
      getVariableCommitment t₂ v₂.flv = getVariableCommitment t v.flv
  | _, _ => False

/-! ### Concrete sample values for witnesses -/

def zeroPoint : Point := ⟨List.replicate 32 0, by simp⟩

def onePoint : Point := ⟨List.replicate 32 1, by simp⟩

def twoPoint : Point := ⟨List.replicate 32 2, by simp⟩

def sampleTable : List VariableCommitment := [.detached onePoint, .detached twoPoint]

def sampleContract : Contract := ⟨[.data ⟨[7, 8]⟩, .value ⟨⟨0⟩, ⟨1⟩⟩], ⟨zeroPoint⟩⟩

/-- A version-1 engine about to execute an `ext` opcode. -/
def sampleState : VMState := initVM ⟨1, 0, 0, [4]⟩

/-- A version-2 engine (extension = true) about to execute `ext`. -/
def sampleStateV2 : VMState := initVM ⟨2, 0, 0, [4]⟩

/-- An engine with a contract below a data item on the stack. -/
def stackedState : VMState :=
  { initVM ⟨1, 0, 0, []⟩ with
    stack := [.data ⟨[3]⟩, .contract ⟨[], ⟨zeroPoint⟩⟩] }

/-- An engine mid-program: cursor at offset 2 of a 3-byte program. -/
def midProgramState : VMState :=
  { initVM ⟨1, 0, 0, [7, 8, 9]⟩ with currentRun := ⟨[7, 8, 9], 2⟩ }

/-! ## Lemmas -/

theorem Outcome.bind_ok {α β : Type} (a : α) (f : α → Outcome β) :
    Outcome.bind (.ok a) f = f a := rfl

theorem Outcome.bind_err {α β : Type} (e : VMError) (f : α → Outcome β) :
    Outcome.bind (.err e) f = .err e := rfl

theorem Outcome.bind_panicked {α β : Type} (f : α → Outcome β) :
    Outcome.bind .panicked f = .panicked := rfl

theorem Outcome.bind_eq_bind {α β : Type} (x : Outcome α) (f : α → Outcome β) :
    x >>= f = Outcome.bind x f := rfl

theorem Outcome.pure_eq_ok {α : Type} (a : α) : (pure a : Outcome α) = .ok a := rfl

theorem makeVariables_spec (cs : List Point) :
    ∀ t : List VariableCommitment,
      (makeVariables t cs).1.map Variable.index = List.range' t.length cs.length ∧
      (makeVariables t cs).2 = t ++ cs.map VariableCommitment.detached := by
  induction cs with
  | nil => intro t; simp [makeVariables]
  | cons c cs ih =>
    intro t
    have h := ih (t ++ [VariableCommitment.detached c])
    refine ⟨?_, ?_⟩
    · show Variable.index ⟨t.length⟩ ::
        (makeVariables (t ++ [VariableCommitment.detached c]) cs).1.map Variable.index =
        List.range' t.length (cs.length + 1)
      rw [h.1, List.range'_succ]
      simp
    · show (makeVariables (t ++ [VariableCommitment.detached c]) cs).2 =
        t ++ (VariableCommitment.detached c :: cs.map VariableCommitment.detached)
      rw [h.2, List.append_assoc]
      rfl

theorem dup_eval (s : VMState) (i : Nat) (h : i < s.stack.length) :
    dup s i =
      (match s.stack.get ⟨i, h⟩ with
        | .data x => .ok (pushItem s (.data x))
        | .var x => .ok (pushItem s (.var x))
        | .expression x => .ok (pushItem s (.expression x))
        | .constraint x => .ok (pushItem s (.constraint x))
        | _ => .err .typeNotCopyable) := by
  unfold dup
  rw [dif_pos h]

theorem Outcome.bind_eq_ok {α β : Type} {x : Outcome α} {f : α → Outcome β} {b : β}
    (h : Outcome.bind x f = .ok b) : ∃ a, x = .ok a ∧ f a = .ok b := by
  cases x with
  | ok a => exact ⟨a, rfl, h⟩
  | err e => exact Outcome.noConfusion h
  | panicked => exact Outcome.noConfusion h

theorem popItem_ok {s : VMState} {item : Item} {s₁ : VMState}
    (h : popItem s = .ok (item, s₁)) :
    s₁.currentRun = s.currentRun ∧ s₁.runStack = s.runStack ∧
    s₁.variableCommitments = s.variableCommitments := by
  unfold popItem at h
  cases hs : s.stack with
  | nil =>
    rw [hs] at h
    exact Outcome.noConfusion h
  | cons top rest =>
    rw [hs] at h
    injection h with h₁
    injection h₁ with h₂ h₃
    subst h₃
    exact ⟨rfl, rfl, rfl⟩

theorem execInstr_preserves_runs (s : VMState) (instr : Instruction) (s₂ : VMState)
    (h : execInstr s instr = .ok s₂) :
    s₂.currentRun = s.currentRun ∧ s₂.runStack = s.runStack := by
  cases instr <;> simp only [execInstr] at h <;>
    try exact Outcome.noConfusion h
  case push len =>
    unfold pushdata at h
    by_cases hc : len ≤ s.currentRun.offset ∧
        s.currentRun.offset ≤ s.currentRun.program.length
    · rw [if_pos hc] at h
      injection h with h₁
      subst h₁
      exact ⟨rfl, rfl⟩
    · rw [if_neg hc] at h
      exact Outcome.noConfusion h
  case drop =>
    unfold ZkVM.drop at h
    simp only [Outcome.bind_eq_bind] at h
    obtain ⟨⟨item, s₁⟩, hpop, h⟩ := Outcome.bind_eq_ok h
    have hs₁ := popItem_ok hpop
    cases item
    case data x =>
      injection h with h₁
      subst h₁
      exact ⟨hs₁.1, hs₁.2.1⟩
    case var x =>
      injection h with h₁
      subst h₁
      exact ⟨hs₁.1, hs₁.2.1⟩
    case expression x =>
      injection h with h₁
      subst h₁
      exact ⟨hs₁.1, hs₁.2.1⟩
    case constraint x =>
      injection h with h₁
      subst h₁
      exact ⟨hs₁.1, hs₁.2.1⟩
    case contract x => exact Outcome.noConfusion h
    case value x => exact Outcome.noConfusion h
    case wideValue x => exact Outcome.noConfusion h
  case dup i =>
    by_cases hi : i < s.stack.length
    · rw [dup_eval s i hi] at h
      cases hx : s.stack.get ⟨i, hi⟩ <;> rw [hx] at h <;>
        first
          | exact Outcome.noConfusion h
          | (injection h with h₁; subst h₁; exact ⟨rfl, rfl⟩)
    · unfold dup at h
      rw [dif_neg hi] at h
      exact Outcome.noConfusion h
  case roll i =>
    unfold roll at h
    by_cases hi : i < s.stack.length
    · rw [dif_pos hi] at h
      injection h with h₁
      subst h₁
      exact ⟨rfl, rfl⟩
    · rw [dif_neg hi] at h
      exact Outcome.noConfusion h
  case issue =>
    unfold issue at h
    simp only [Outcome.bind_eq_bind] at h
    obtain ⟨⟨i₁, t₁⟩, _, h⟩ := Outcome.bind_eq_ok h
    obtain ⟨d, _, h⟩ := Outcome.bind_eq_ok h
    obtain ⟨p, _, h⟩ := Outcome.bind_eq_ok h
    obtain ⟨⟨i₂, t₂⟩, _, h⟩ := Outcome.bind_eq_ok h
    obtain ⟨v₁, _, h⟩ := Outcome.bind_eq_ok h
    obtain ⟨⟨i₃, t₃⟩, _, h⟩ := Outcome.bind_eq_ok h
    obtain ⟨v₂, _, h⟩ := Outcome.bind_eq_ok h
    exact Outcome.noConfusion h
  case input =>
    unfold inputInstr at h
    simp only [Outcome.bind_eq_bind] at h
    obtain ⟨⟨item, s₁⟩, hpop, h⟩ := Outcome.bind_eq_ok h
    obtain ⟨d, _, h⟩ := Outcome.bind_eq_ok h
    obtain ⟨⟨⟨c, txid, utxo⟩, tF⟩, _, h⟩ := Outcome.bind_eq_ok h
    injection h with h₁
    subst h₁
    have hs₁ := popItem_ok hpop
    exact ⟨hs₁.1, hs₁.2.1⟩
  case nonce =>
    unfold nonce at h
    simp only [Outcome.bind_eq_bind] at h
    obtain ⟨⟨item, s₁⟩, hpop, h⟩ := Outcome.bind_eq_ok h
    obtain ⟨d, _, h⟩ := Outcome.bind_eq_ok h
    obtain ⟨p, _, h⟩ := Outcome.bind_eq_ok h
    injection h with h₁
    subst h₁
    have hs₁ := popItem_ok hpop
    exact ⟨hs₁.1, hs₁.2.1⟩
  case ext opcode =>
    unfold ext at h
    cases hx : s.extension <;> rw [hx] at h
    · exact Outcome.noConfusion h
    · injection h with h₁
      subst h₁
      exact ⟨rfl, rfl⟩

theorem step_measure_lt (parse : List Nat → Option (Instruction × Nat))
    (hp : ParseWellFormed parse) (s s₂ : VMState)
    (h : step parse s = .ok (true, s₂)) :
    vmMeasure s₂ < vmMeasure s := by
  unfold step at h
  by_cases hoff : s.currentRun.offset = s.currentRun.program.length
  · rw [if_pos hoff] at h
    cases hrs : s.runStack with
    | nil =>
      rw [hrs] at h
      simp at h
    | cons r rest =>
      rw [hrs] at h
      simp only [Outcome.ok.injEq, Prod.mk.injEq, true_and] at h
      subst h
      unfold vmMeasure runRemaining
      rw [hrs]
      simp only [List.map_cons, List.sum_cons, List.length_cons]
      omega
  · rw [if_neg hoff] at h
    by_cases hlen : s.currentRun.program.length < s.currentRun.offset
    · rw [if_pos hlen] at h
      exact Outcome.noConfusion h
    · rw [if_neg hlen] at h
      cases hpe : parse (s.currentRun.program.drop s.currentRun.offset) with
      | none =>
        rw [hpe] at h
        exact Outcome.noConfusion h
      | some pr =>
        obtain ⟨instr, n⟩ := pr
        rw [hpe] at h
        have hn := hp _ _ _ hpe
        rw [List.length_drop] at hn
        have h₂ : Outcome.bind (execInstr { s with currentRun :=
            { s.currentRun with offset := s.currentRun.offset + n } } instr)
            (fun s₃ => Outcome.ok (true, s₃)) = Outcome.ok (true, s₂) := h
        obtain ⟨s₃, hex, h₃⟩ := Outcome.bind_eq_ok h₂
        injection h₃ with h₄
        injection h₄ with hb hs
        subst hs
        have hpr := execInstr_preserves_runs _ instr _ hex
        have hm : vmMeasure s₃ =
            (s.currentRun.program.length - (s.currentRun.offset + n)) +
            (s.runStack.map runRemaining).sum + s.runStack.length := by
          unfold vmMeasure runRemaining
          rw [hpr.1, hpr.2]
        rw [hm]
        unfold vmMeasure runRemaining
        omega

theorem runFuel_isSome (parse : List Nat → Option (Instruction × Nat))
    (hp : ParseWellFormed parse) :
    ∀ fuel s, vmMeasure s < fuel → (runFuel parse fuel s).isSome = true := by
  intro fuel
  induction fuel with
  | zero => intro s h; omega
  | succ fuel ih =>
    intro s h
    unfold runFuel
    cases hstep : step parse s with
    | ok p =>
      obtain ⟨b, s₂⟩ := p
      cases b with
      | true =>
        have hlt := step_measure_lt parse hp s s₂ hstep
        exact ih s₂ (by omega)
      | false => rfl
    | err e => rfl
    | panicked => rfl

theorem sampleParse_wellFormed : ParseWellFormed sampleParse := by
  intro b instr n h
  cases b with
  | nil => simp [sampleParse] at h
  | cons x rest =>
    simp only [sampleParse] at h
    split_ifs at h
    case _ =>
      injection h with h₁
      injection h₁ with hi hn
      subst hn
      simp only [List.length_cons]
      omega
    case _ =>
      injection h with h₁
      injection h₁ with hi hn
      subst hn
      simp only [List.length_cons]
      omega
    case _ =>
      injection h with h₁
      injection h₁ with hi hn
      subst hn
      simp only [List.length_cons]
      omega
    case _ =>
      injection h with h₁
      injection h₁ with hi hn
      subst hn
      simp only [List.length_cons]
      omega
    case _ =>
      injection h with h₁
      injection h₁ with hi hn
      subst hn
      simp only [List.length_cons]
      omega
    case _ =>
      cases rest with
      | nil => exact Option.noConfusion h
      | cons len rest₂ =>
        have h₂ : (if len ≤ rest₂.length then
            some (Instruction.push len, 2 + len) else none) = some (instr, n) := h
        by_cases hc : len ≤ rest₂.length
        · rw [if_pos hc] at h₂
          injection h₂ with h₁
          injection h₁ with hi hn
          subst hn
          simp only [List.length_cons]
          omega
        · rw [if_neg hc] at h₂
          exact Option.noConfusion h₂
    case _ =>
      injection h with h₁
      injection h₁ with hi hn
      subst hn
      simp only [List.length_cons]
      omega

theorem readU8x32_append (p : Point) (rest : List Nat) :
    readU8x32 (p.val ++ rest) = .ok (p, rest) := by
  unfold readU8x32
  have hlen : (p.val ++ rest).length = 32 + rest.length := by
    rw [List.length_append, p.property]
  rw [dif_pos (by omega)]
  have ht : (p.val ++ rest).take 32 = p.val := List.take_left' p.property
  have hd : (p.val ++ rest).drop 32 = rest := List.drop_left' p.property
  simp [Subtype.ext_iff, ht, hd]

theorem readPoint_append (p : Point) (rest : List Nat) :
    readPoint (p.val ++ rest) = .ok (p, rest) :=
  readU8x32_append p rest

theorem readUsize_writeU32 (n : Nat) (rest : List Nat) (h : n < 4294967296) :
    readUsize (writeU32 n ++ rest) = .ok (n, rest) := by
  have hm : n % 4294967296 = n := Nat.mod_eq_of_lt h
  show Outcome.ok (n % 4294967296 % 256 +
      256 * (n % 4294967296 / 256 % 256) +
      65536 * (n % 4294967296 / 65536 % 256) +
      16777216 * (n % 4294967296 / 16777216 % 256), rest) = .ok (n, rest)
  rw [hm]
  have key : n % 256 + 256 * (n / 256 % 256) + 65536 * (n / 65536 % 256) +
      16777216 * (n / 16777216 % 256) = n := by omega
  rw [key]

theorem readBytes_append (b rest : List Nat) :
    readBytes b.length (b ++ rest) = .ok (b, rest) := by
  unfold readBytes
  rw [if_pos (by rw [List.length_append]; omega)]
  rw [List.take_left, List.drop_left]

theorem encodeItem_data (t : List VariableCommitment) (d : Data) :
    encodeItem t (.data d) =
      some (DATA_TYPE :: (writeU32 d.bytes.length ++ d.bytes)) := rfl

theorem encodeItem_value (t : List VariableCommitment) (v : Value) (q f : Point)
    (hq : getVariableCommitment t v.qty = some q)
    (hf : getVariableCommitment t v.flv = some f) :
    encodeItem t (.value v) = some (VALUE_TYPE :: (q.val ++ f.val)) := by
  have hdef : encodeItem t (.value v) = (do
      let qty ← getVariableCommitment t v.qty
      let flv ← getVariableCommitment t v.flv
      some (writeU8 VALUE_TYPE ++ writePoint qty ++ writePoint flv)) := rfl
  rw [hdef, hq, hf]
  rfl

theorem encodePayload_exists (t : List VariableCommitment) :
    ∀ ps : List PortableItem, (∀ p ∈ ps, portableValid t p = true) →
      ∃ body, encodePayload t ps = some body ∧ ps.length ≤ body.length := by
  intro ps
  induction ps with
  | nil => exact fun _ => ⟨[], rfl, Nat.le_refl 0⟩
  | cons p ps ih =>
    intro hv
    obtain ⟨rest, hrest, hlen⟩ :=
      ih fun q hq => hv q (List.mem_cons_of_mem p hq)
    have hvp : portableValid t p = true := hv p (List.mem_cons_self p ps)
    cases p with
    | data d =>
      refine ⟨(DATA_TYPE :: (writeU32 d.bytes.length ++ d.bytes)) ++ rest, ?_, ?_⟩
      · unfold encodePayload
        rw [encodeItem_data, hrest]
        rfl
      · simp only [List.length_append, List.length_cons]
        omega
    | value v =>
      have hv2 := hvp
      simp only [portableValid, Bool.and_eq_true, Option.isSome_iff_exists] at hv2
      obtain ⟨⟨q, hq⟩, f, hf⟩ := hv2
      refine ⟨(VALUE_TYPE :: (q.val ++ f.val)) ++ rest, ?_, ?_⟩
      · unfold encodePayload
        rw [encodeItem_value t v q f hq hf, hrest]
        rfl
      · simp only [List.length_append, List.length_cons]
        omega

theorem resolve_fresh (tdec Δ : List VariableCommitment) (p : Point) (k : Nat)
    (hk : Δ[k]? = some (.detached p)) :
    getVariableCommitment (tdec ++ Δ) ⟨tdec.length + k⟩ = some p := by
  unfold getVariableCommitment
  have hidx : (⟨tdec.length + k⟩ : Variable).index = tdec.length + k := rfl
  rw [hidx, List.getElem?_append_right (by omega)]
  have hi : tdec.length + k - tdec.length = k := by omega
  rw [hi, hk]
  rfl

theorem decodeItems_encodePayload (t : List VariableCommitment)
    (ps : List PortableItem) :
    ∀ (body : List Nat) (tdec : List VariableCommitment) (suffix : List Nat),
      (∀ p ∈ ps, portableValid t p = true) →
      encodePayload t ps = some body →
      ∃ ps₂ Δ, decodeItems ps.length (body ++ suffix) tdec = .ok (ps₂, tdec ++ Δ) ∧
        List.Forall₂ (portableMatches t (tdec ++ Δ)) ps ps₂ := by
  induction ps with
  | nil =>
    intro body tdec suffix hv henc
    have hb : (some [] : Option (List Nat)) = some body := henc
    injection hb with hb
    subst hb
    refine ⟨[], [], ?_, List.Forall₂.nil⟩
    simp [decodeItems]
  | cons p ps ih =>
    intro body tdec suffix hv henc
    have hvp : portableValid t p = true := hv p (List.mem_cons_self p ps)
    have hvs : ∀ q ∈ ps, portableValid t q = true :=
      fun q hq => hv q (List.mem_cons_of_mem p hq)
    cases p with
    | data d =>
      have hlen : d.bytes.length < 4294967296 := by
        have hx := hvp
        simp only [portableValid, decide_eq_true_eq] at hx
        exact hx
      rw [encodePayload, encodeItem_data] at henc
      cases hrest : encodePayload t ps with
      | none =>
        rw [hrest] at henc
        exact Option.noConfusion henc
      | some restBody =>
        rw [hrest] at henc
        have henc₂ : some ((DATA_TYPE :: (writeU32 d.bytes.length ++ d.bytes)) ++ restBody)
            = some body := henc
        injection henc₂ with hbody
        subst hbody
        obtain ⟨ps₂, Δ, hdec, hmatch⟩ := ih restBody tdec suffix hvs hrest
        refine ⟨.data d :: ps₂, Δ, ?_, List.Forall₂.cons rfl hmatch⟩
        have harr : ((DATA_TYPE :: (writeU32 d.bytes.length ++ d.bytes)) ++ restBody) ++ suffix
            = DATA_TYPE :: (writeU32 d.bytes.length ++ (d.bytes ++ (restBody ++ suffix))) := by
          simp [List.append_assoc]
        rw [harr]
        have hread : readUsize (writeU32 d.bytes.length ++ (d.bytes ++ (restBody ++ suffix)))
            = .ok (d.bytes.length, d.bytes ++ (restBody ++ suffix)) :=
          readUsize_writeU32 _ _ hlen
        have hbytes : readBytes d.bytes.length (d.bytes ++ (restBody ++ suffix))
            = .ok (d.bytes, restBody ++ suffix) := readBytes_append _ _
        simp [decodeItems, readU8, DATA_TYPE, VALUE_TYPE, Outcome.bind_eq_bind,
          Outcome.bind_ok, hread, hbytes, hdec]
    | value v =>
      have hv2 := hvp
      simp only [portableValid, Bool.and_eq_true, Option.isSome_iff_exists] at hv2
      obtain ⟨⟨q, hq⟩, f, hf⟩ := hv2
      rw [encodePayload, encodeItem_value t v q f hq hf] at henc
      cases hrest : encodePayload t ps with
      | none =>
        rw [hrest] at henc
        exact Option.noConfusion henc
      | some restBody =>
        rw [hrest] at henc
        have henc₂ : some ((VALUE_TYPE :: (q.val ++ f.val)) ++ restBody) = some body := henc
        injection henc₂ with hbody
        subst hbody
        obtain ⟨ps₂, Δ', hdec, hmatch⟩ :=
          ih restBody (tdec ++ [.detached q, .detached f]) suffix hvs hrest
        refine ⟨.value ⟨⟨tdec.length⟩, ⟨tdec.length + 1⟩⟩ :: ps₂,
          [VariableCommitment.detached q, VariableCommitment.detached f] ++ Δ', ?_, ?_⟩
        · have harr : ((VALUE_TYPE :: (q.val ++ f.val)) ++ restBody) ++ suffix
              = VALUE_TYPE :: (q.val ++ (f.val ++ (restBody ++ suffix))) := by
            simp [List.append_assoc]
          rw [harr]
          have hq1 : readPoint (q.val ++ (f.val ++ (restBody ++ suffix)))
              = .ok (q, f.val ++ (restBody ++ suffix)) := readPoint_append _ _
          have hf1 : readPoint (f.val ++ (restBody ++ suffix))
              = .ok (f, restBody ++ suffix) := readPoint_append _ _
          simp [decodeItems, readU8, DATA_TYPE, VALUE_TYPE, Outcome.bind_eq_bind,
            Outcome.bind_ok, hq1, hf1, makeVariable, hdec, List.append_assoc]
        · rw [List.append_assoc] at hmatch
          refine List.Forall₂.cons ?_ hmatch
          have hz : ([VariableCommitment.detached q, VariableCommitment.detached f] ++ Δ')[0]?
              = some (VariableCommitment.detached q) := by simp
          have ho : ([VariableCommitment.detached q, VariableCommitment.detached f] ++ Δ')[1]?
              = some (VariableCommitment.detached f) := by simp
          have hmq := resolve_fresh tdec _ q 0 hz
          have hmf := resolve_fresh tdec _ f 1 ho
          rw [Nat.add_zero] at hmq
          exact ⟨by rw [hmq, hq], by rw [hmf, hf]⟩

/-! ## Claim theorems -/

/-- C2: every `Item → X` downcast is a total function returning the
unwrapped `X` exactly when the active variant matches, and the
corresponding `TypeNot<X>` error variant otherwise.  (The enum of
errors.rs omits `typeNotVariable`, `typeNotExpression` and
`typeNotPortable`, which types.rs nevertheless returns; the statement is
proved over the enumeration as types.rs requires it.) -/
theorem downcast_totality (item : Item) :
    ((∀ d, item.toData = .ok d ↔ item = .data d) ∧
      ((∃ d, item.toData = .ok d) ∨ item.toData = .err .typeNotData)) ∧
    ((∀ p, item.toPortable = .ok p ↔
        ((∃ d, item = .data d ∧ p = .data d) ∨ (∃ v, item = .value v ∧ p = .value v))) ∧
      ((∃ p, item.toPortable = .ok p) ∨ item.toPortable = .err .typeNotPortable)) ∧
    ((∀ v, item.toVariable = .ok v ↔ item = .var v) ∧
      ((∃ v, item.toVariable = .ok v) ∨ item.toVariable = .err .typeNotVariable)) ∧
    ((∀ e, item.toExpression = .ok e ↔ item = .expression e) ∧
      ((∃ e, item.toExpression = .ok e) ∨ item.toExpression = .err .typeNotExpression)) ∧
    ((∀ v, item.toValue = .ok v ↔ item = .value v) ∧
      ((∃ v, item.toValue = .ok v) ∨ item.toValue = .err .typeNotValue)) ∧
    ((∀ w, item.toWideValue = .ok w ↔ item = .wideValue w) ∧
      ((∃ w, item.toWideValue = .ok w) ∨ item.toWideValue = .err .typeNotWideValue)) ∧
    ((∀ c, item.toContract = .ok c ↔ item = .contract c) ∧
      ((∃ c, item.toContract = .ok c) ∨ item.toContract = .err .typeNotContract)) := by
  cases item <;>
    simp [Item.toData, Item.toPortable, Item.toVariable, Item.toExpression,
      Item.toValue, Item.toWideValue, Item.toContract]
  all_goals exact fun p => eq_comm

/-- C10: the point-decoding path used by `nonce` (`Data::to_point` via
`to_u8x32`) checks only that the data is exactly 32 bytes long,
returning `FormatError` otherwise; it never checks group-element
validity, so it can only return `ok` or `FormatError` — never
`InvalidPoint`. -/
theorem to_point_validates_length_only (d : Data) :
    (∀ p : Point, d.toPoint = .ok p ↔ d.bytes.length = 32 ∧ p.val = d.bytes) ∧
    (d.toPoint = .err .formatError ↔ d.bytes.length ≠ 32) ∧
    ((∃ p, d.toPoint = .ok p) ∨ d.toPoint = .err .formatError) := by
  unfold Data.toPoint Data.toU8x32
  by_cases h : d.bytes.length = 32
  · rw [dif_pos h]
    refine ⟨?_, by simp [h], Or.inl ⟨⟨d.bytes, h⟩, rfl⟩⟩
    intro p
    constructor
    · intro hp
      cases hp
      exact ⟨h, rfl⟩
    · intro ⟨_, hp⟩
      exact congrArg Outcome.ok (Subtype.ext hp.symm)
  · rw [dif_neg h]
    exact ⟨fun p => by simp [h], by simp [h], Or.inr rfl⟩

/-- C10 witness: a 31-byte string is rejected with `FormatError`, a
32-byte string is accepted as a point with the same bytes. -/
theorem to_point_validates_length_only_witness :
    (Data.toPoint ⟨List.replicate 31 0⟩ = .err .formatError ↔
      (List.replicate 31 (0 : Nat)).length ≠ 32) ∧
    (∀ p : Point, Data.toPoint ⟨List.replicate 32 0⟩ = .ok p ↔
      (List.replicate 32 (0 : Nat)).length = 32 ∧ p.val = List.replicate 32 0) :=
  ⟨(to_point_validates_length_only ⟨List.replicate 31 0⟩).2.1,
    (to_point_validates_length_only ⟨List.replicate 32 0⟩).1⟩

/-- C4: when the declared payload count exceeds the number of bytes left
in the buffer, `decode_output` fails with `FormatError` before
constructing any payload. -/
theorem decode_output_count_guard (t : List VariableCommitment)
    (output : List Nat) (pred : Point) (rest : List Nat) (k : Nat)
    (items : List Nat)
    (h₁ : readPoint output = .ok (pred, rest))
    (h₂ : readUsize rest = .ok (k, items))
    (h₃ : items.length < k) :
    decodeOutput t output = .err .formatError := by
  have hgt : k > items.length := h₃
  simp [decodeOutput, h₁, h₂, Outcome.bind_eq_bind, Outcome.bind_ok, hgt]

/-- C4 witness: a 36-byte output whose count field declares 0xFFFFFFFF
items with zero bytes remaining is rejected. -/
theorem decode_output_count_guard_witness :
    readPoint (List.replicate 32 0 ++ [255, 255, 255, 255]) =
      .ok (zeroPoint, [255, 255, 255, 255]) ∧
    readUsize [255, 255, 255, 255] = .ok (4294967295, []) ∧
    ([] : List Nat).length < 4294967295 ∧
    decodeOutput [] (List.replicate 32 0 ++ [255, 255, 255, 255]) =
      .err .formatError :=
  ⟨rfl, rfl, by decide,
    decode_output_count_guard [] _ zeroPoint [255, 255, 255, 255] 4294967295 []
      rfl rfl (by decide)⟩

/-- C5: `dup` and `drop` on a `Contract`, `Value` or `WideValue` always
fail with `TypeNotCopyable` (an error outcome carries no state change);
on `Data`, `Variable`, `Expression` or `Constraint` both succeed, `dup`
pushing the item and `drop` removing the top. -/
theorem dup_drop_copyability (s : VMState) (i : Nat) (h : i < s.stack.length) :
    ((s.stack.get ⟨i, h⟩).copyable = false → dup s i = .err .typeNotCopyable) ∧
    ((s.stack.get ⟨i, h⟩).copyable = true →
      dup s i = .ok (pushItem s (s.stack.get ⟨i, h⟩))) ∧
    ∀ top rest, s.stack = top :: rest →
      (top.copyable = false → drop s = .err .typeNotCopyable) ∧
      (top.copyable = true → drop s = .ok { s with stack := rest }) := by
  refine ⟨?_, ?_, ?_⟩
  · intro hc
    rw [dup_eval s i h]
    cases hx : s.stack.get ⟨i, h⟩ <;> rw [hx] at hc <;>
      simp [Item.copyable] at hc ⊢
  · intro hc
    rw [dup_eval s i h]
    cases hx : s.stack.get ⟨i, h⟩ <;> rw [hx] at hc <;>
      simp [Item.copyable] at hc ⊢
  · intro top rest hstack
    constructor <;> intro hc <;>
      cases top <;> simp [Item.copyable] at hc <;>
      simp [drop, popItem, hstack, Outcome.bind_eq_bind, Outcome.bind_ok]

/-- C5 witness: on a stack holding a data item above a contract, `dup 1`
and (after the data item) `drop` of the contract fail with
`TypeNotCopyable`, while `dup 0` and `drop` of the data item succeed. -/
theorem dup_drop_copyability_witness :
    (1 < stackedState.stack.length ∧
      dup stackedState 1 = .err .typeNotCopyable) ∧
    (0 < stackedState.stack.length ∧
      drop stackedState = .ok { stackedState with stack := [.contract ⟨[], ⟨zeroPoint⟩⟩] }) := by
  have h1 : 1 < stackedState.stack.length := by
    simp [stackedState, initVM]
  have h0 : 0 < stackedState.stack.length := by
    simp [stackedState, initVM]
  refine ⟨⟨h1, ?_⟩, ⟨h0, ?_⟩⟩
  · exact (dup_drop_copyability stackedState 1 h1).1 (by rfl)
  · exact (((dup_drop_copyability stackedState 0 h0).2.2
      (.data ⟨[3]⟩) [.contract ⟨[], ⟨zeroPoint⟩⟩] (by rfl)).2) (by rfl)

/-- C7: allocating N variables in sequence on a fresh engine returns the
strictly increasing indices 0..N-1, each entry is created `Detached`,
and each handle resolves to exactly the commitment it was allocated with
(no attach/reblind operation exists in this core to invalidate it). -/
theorem variable_allocation_monotonic (cs : List Point) :
    (makeVariables [] cs).1.map Variable.index = List.range cs.length ∧
    ∀ i (h : i < cs.length),
      getVariableCommitment (makeVariables [] cs).2 ⟨i⟩ = some (cs.get ⟨i, h⟩) ∧
      (makeVariables [] cs).2[i]? = some (.detached (cs.get ⟨i, h⟩)) := by
  have h := makeVariables_spec cs []
  refine ⟨?_, ?_⟩
  · rw [h.1]
    simp [List.range_eq_range']
  · intro i hi
    rw [h.2]
    have hm : (cs.map VariableCommitment.detached)[i]? =
        some (.detached (cs.get ⟨i, hi⟩)) := by
      simp [List.getElem?_eq_getElem, hi]
    constructor
    · simp [getVariableCommitment, hm]
    · simp only [List.nil_append]
      exact hm

/-- C6: with the extension flag as `verify_tx` sets it, a step at an
`Ext(opcode)` instruction under `version <= CURRENT_VERSION` fails with
`ExtensionsNotAllowed`, and under `version > CURRENT_VERSION` succeeds
with no effect beyond advancing the cursor — stack and transaction log
are untouched. -/
theorem ext_gating (parse : List Nat → Option (Instruction × Nat))
    (s : VMState) (op n : Nat)
    (hext : s.extension = decide (CURRENT_VERSION < s.version))
    (hlt : s.currentRun.offset < s.currentRun.program.length)
    (hp : parse (s.currentRun.program.drop s.currentRun.offset) = some (.ext op, n)) :
    (s.version ≤ CURRENT_VERSION → step parse s = .err .extensionsNotAllowed) ∧
    (CURRENT_VERSION < s.version →
      step parse s = .ok (true,
        { s with currentRun := ⟨s.currentRun.program, s.currentRun.offset + n⟩ }) ∧
      ∀ s₂, step parse s = .ok (true, s₂) →
        s₂.stack = s.stack ∧ s₂.txlog = s.txlog) := by
  have hne : s.currentRun.offset ≠ s.currentRun.program.length := Nat.ne_of_lt hlt
  have hnl : ¬ s.currentRun.program.length < s.currentRun.offset := by omega
  constructor
  · intro hv
    have hfalse : s.extension = false := by
      rw [hext]
      simp
      omega
    simp [step, hne, hnl, hp, execInstr, ext, hfalse, Outcome.bind_eq_bind, Outcome.bind_err]
  · intro hv
    have htrue : s.extension = true := by
      rw [hext]
      simp [hv]
    have hstep : step parse s = .ok (true,
        { s with currentRun := ⟨s.currentRun.program, s.currentRun.offset + n⟩ }) := by
      simp [step, hne, hnl, hp, execInstr, ext, htrue, Outcome.bind_eq_bind, Outcome.bind_ok]
    refine ⟨hstep, ?_⟩
    intro s₂ h₂
    rw [hstep] at h₂
    injection h₂ with h₃
    injection h₃ with h₄ h₅
    subst h₅
    exact ⟨rfl, rfl⟩

/-- C6 witness: on a version-1 transaction the ext opcode fails with
`ExtensionsNotAllowed`; on a version-2 transaction the same opcode is a
no-op that only advances the cursor. -/
theorem ext_gating_witness :
    (sampleState.version ≤ CURRENT_VERSION ∧
      step sampleParse sampleState = .err .extensionsNotAllowed) ∧
    (CURRENT_VERSION < sampleStateV2.version ∧
      step sampleParse sampleStateV2 = .ok (true,
        { sampleStateV2 with currentRun := ⟨[4], 1⟩ })) :=
  ⟨⟨by decide,
      (ext_gating sampleParse sampleState 4 1 rfl (by decide) rfl).1 (by decide)⟩,
    ⟨by decide,
      ((ext_gating sampleParse sampleStateV2 4 1 rfl (by decide) rfl).2 (by decide)).1⟩⟩

/-- C9: under the precondition that the parsed instruction size covers
its own payload (`len <= offset`) and the cursor is within the buffer,
`pushdata` pushes a `Data` item holding exactly the `len` program bytes
ending at the just-advanced offset; when `len > offset` the Rust usize
subtraction underflows (a panic, not a typed error). -/
theorem pushdata_slices_program (s : VMState) (len : Nat) :
    (len ≤ s.currentRun.offset → s.currentRun.offset ≤ s.currentRun.program.length →
      ∃ bytes, pushdata s len = .ok { s with stack := .data ⟨bytes⟩ :: s.stack } ∧
        bytes.length = len ∧
        ∀ j, j < len →
          bytes[j]? = s.currentRun.program[s.currentRun.offset - len + j]?) ∧
    (s.currentRun.offset < len → pushdata s len = .panicked) := by
  constructor
  · intro h₁ h₂
    refine ⟨(s.currentRun.program.drop (s.currentRun.offset - len)).take len,
      ?_, ?_, ?_⟩
    · simp [pushdata, h₁, h₂, pushItem]
    · rw [List.length_take, List.length_drop]
      omega
    · intro j hj
      rw [List.getElem?_take_of_lt hj, List.getElem?_drop]
  · intro h₁
    have : ¬ (len ≤ s.currentRun.offset ∧
        s.currentRun.offset ≤ s.currentRun.program.length) := by
      intro ⟨ha, _⟩
      omega
    simp [pushdata, this]

/-- C9 witness: at offset 2 of the program [7, 8, 9], Push(1) pushes
exactly the byte [8], the one byte ending at the cursor. -/
theorem pushdata_slices_program_witness :
    1 ≤ midProgramState.currentRun.offset ∧
    midProgramState.currentRun.offset ≤ midProgramState.currentRun.program.length ∧
    ∃ bytes, pushdata midProgramState 1 =
        .ok { midProgramState with stack := .data ⟨bytes⟩ :: midProgramState.stack } ∧
      bytes.length = 1 ∧
      ∀ j, j < 1 →
        bytes[j]? =
          midProgramState.currentRun.program[midProgramState.currentRun.offset - 1 + j]? :=
  ⟨by decide, by decide,
    (pushdata_slices_program midProgramState 1).1 (by decide) (by decide)⟩

/-- C1: concrete evaluations of `verify_tx`.  A program consisting of a
single unimplemented opcode (`const`) makes the run panic instead of
returning a typed error; a program that leaves data on the stack returns
`StackNotClean`; the empty program returns `NotUniqueTxid`.  The success
path itself (txid derivation, signature and proof verification,
`Ok(VerifiedTx)`) is `unimplemented!()` in the source. -/
theorem verify_tx_stub_behavior :
    verifyTx sampleParse ⟨1, 0, 0, [2]⟩ = some .panicked ∧
    verifyTx sampleParse ⟨1, 0, 0, [5, 1, 9]⟩ = some (.err .stackNotClean) ∧
    verifyTx sampleParse ⟨1, 0, 0, []⟩ = some (.err .notUniqueTxid) :=
  ⟨rfl, rfl, rfl⟩

/-- C7 witness: two allocations return indices [0, 1], and handle 1
resolves to the second commitment, stored `Detached`. -/
theorem variable_allocation_monotonic_witness :
    (makeVariables [] [onePoint, twoPoint]).1.map Variable.index = List.range 2 ∧
    1 < ([onePoint, twoPoint] : List Point).length ∧
    getVariableCommitment (makeVariables [] [onePoint, twoPoint]).2 ⟨1⟩ =
      some (([onePoint, twoPoint] : List Point).get ⟨1, by decide⟩) :=
  ⟨(variable_allocation_monotonic [onePoint, twoPoint]).1, by decide,
    ((variable_allocation_monotonic [onePoint, twoPoint]).2 1 (by decide)).1⟩

/-- C3: for every contract a VM instance can hold (payload count within
the 32-bit count field, every data length within the 32-bit length
field, every value's variables resolving in the commitment table),
`decode_output (encode_output c)` reproduces the contract: the predicate
point is equal, every data item carries the same bytes, and every value
item's freshly allocated quantity/flavor variables resolve in the
resulting table to exactly the commitments the original variables
currently resolve to (encode writes the currently resolved point,
detached or attached). -/
theorem decode_encode_roundtrip (t : List VariableCommitment) (c : Contract)
    (hk : c.payload.length < 4294967296)
    (hv : ∀ p ∈ c.payload, portableValid t p = true) :
    ∃ bytes c₂ t₂, encodeOutput t c = some bytes ∧
      decodeOutput t bytes = .ok (c₂, t₂) ∧
      c₂.predicate = c.predicate ∧
      List.Forall₂ (portableMatches t t₂) c.payload c₂.payload := by
  obtain ⟨body, hbody, hblen⟩ := encodePayload_exists t c.payload hv
  obtain ⟨ps₂, Δ, hdec, hmatch⟩ :=
    decodeItems_encodePayload t c.payload body t [] hv hbody
  rw [List.append_nil] at hdec
  refine ⟨writePoint c.predicate.point ++ (writeU32 c.payload.length ++ body),
    ⟨ps₂, c.predicate⟩, t ++ Δ, ?_, ?_, rfl, hmatch⟩
  · unfold encodeOutput
    rw [hbody]
    simp [List.append_assoc]
  · unfold decodeOutput
    have hpt : readPoint (writePoint c.predicate.point ++
        (writeU32 c.payload.length ++ body))
        = .ok (c.predicate.point, writeU32 c.payload.length ++ body) :=
      readPoint_append _ _
    have hcount : readUsize (writeU32 c.payload.length ++ body)
        = .ok (c.payload.length, body) := readUsize_writeU32 _ _ hk
    have hguard : ¬ c.payload.length > body.length := by omega
    simp [hpt, hcount, hguard, hdec, Outcome.bind_eq_bind, Outcome.bind_ok]

/-- C3 witness: a contract holding one data item and one value over a
two-entry commitment table round-trips. -/
theorem decode_encode_roundtrip_witness :
    sampleContract.payload.length < 4294967296 ∧
    (∀ p ∈ sampleContract.payload, portableValid sampleTable p = true) ∧
    ∃ bytes c₂ t₂, encodeOutput sampleTable sampleContract = some bytes ∧
      decodeOutput sampleTable bytes = .ok (c₂, t₂) ∧
      c₂.predicate = sampleContract.predicate ∧
      List.Forall₂ (portableMatches sampleTable t₂)
        sampleContract.payload c₂.payload :=
  ⟨by decide, by decide,
    decode_encode_roundtrip sampleTable sampleContract (by decide) (by decide)⟩

/-- C8: for any decoder satisfying the collaborator interface (each
parsed instruction consumes at least one byte and at most the remaining
buffer), every continuing step strictly decreases the termination
measure (remaining bytes of current and suspended runs plus run-stack
depth) — no handler rewinds the cursor — and consequently the
instruction loop completes within `vmMeasure s + 1` steps, a bound no
larger than the combined program length plus one. -/
theorem run_terminates (parse : List Nat → Option (Instruction × Nat))
    (hp : ParseWellFormed parse) (s : VMState) :
    (∀ s₂, step parse s = .ok (true, s₂) → vmMeasure s₂ < vmMeasure s) ∧
    (runFuel parse (vmMeasure s + 1) s).isSome = true :=
  ⟨fun s₂ h => step_measure_lt parse hp s s₂ h,
    runFuel_isSome parse hp (vmMeasure s + 1) s (Nat.lt_succ_self _)⟩

/-- C8 witness: the sample decoder is well-formed and the bounded run on
a concrete 3-byte program completes within its measure. -/
theorem run_terminates_witness :
    (runFuel sampleParse (vmMeasure (initVM ⟨1, 0, 0, [5, 1, 9]⟩) + 1)
      (initVM ⟨1, 0, 0, [5, 1, 9]⟩)).isSome = true :=
  (run_terminates sampleParse sampleParse_wellFormed (initVM ⟨1, 0, 0, [5, 1, 9]⟩)).2

end ZkVM
